import Mathlib

/-
Verification of the training driver `src/discrete_driver.py`.

The driver is sequential glue around external collaborators (DQNAgent,
CarlaEnvironment, EncodeState, ClientConnection).  We give a shallow
embedding of the control flow of the driver and arithmetic:

* external calls are modelled by oracles passed in as parameters
  (the sequence of `env.step` results of an episode, the per-episode
  wall-clock durations, the epsilon of the agent after each episode, the
  random stream behind `random.randint`);
* Python numbers are modelled by `ℚ` (scores, epsilon, durations) and
  `ℕ` (episode indices, actions);
* the pickled checkpoint file is modelled as a list of serialized
  objects (opening the file in mode wb truncates it, and one call to `pickle.dump` writes one object);
* the dynamic name binding of Python and exceptions are modelled explicitly
  where the claims are about them (`run_name`, `client`/`world`,
  `NameError`).
-/

namespace DiscreteDriver

/-- Observations are opaque tokens (the encoded states passed around by the
driver); the driver never inspects them. -/
abbrev Obs := ℕ

/-- Line 85: `n_actions = 7  # Car can only make 7 actions`. -/
def n_actions : ℕ := 7

/-- Model of the Python call `random.randint(a, b)`: an arbitrary draw `r` from the
random stream, mapped into the closed range `[a, b]` (both endpoints
included, as in Python). -/
def randint (a b : ℕ) (r : ℕ) : ℕ := a + r % (b + 1 - a)

/-! ### The checkpoint record (lines 96-103 and 188-191) -/

/-- Serialized Python values, enough for the checkpoint record. -/
inductive PyVal where
  | pyNat : ℕ → PyVal
  | pyRat : ℚ → PyVal
  | pyDict : List (String × PyVal) → PyVal

/-- Keys of a serialized dict (`none` for a non-dict). -/
def pyKeys : PyVal → Option (List String)
  | PyVal.pyDict entries => some (entries.map Prod.fst)
  | _ => none

/-- Python dict lookup `d[key]`; `none` models a `KeyError`. -/
def dictGet : PyVal → String → Option PyVal
  | PyVal.pyDict entries, key => (entries.find? (fun p => p.1 = key)).map Prod.snd
  | _, _ => none

/-- Line 189 builds the dict `data_obj` with the keys `cumulative_score`,
`epsilon` and `epoch` (in that insertion order), holding the running average
score, `agent.epsilon` and the episode index `step`. -/
def data_obj (cumulative_score epsilon : ℚ) (step : ℕ) : PyVal :=
  PyVal.pyDict
    [("cumulative_score", PyVal.pyRat cumulative_score),
     ("epsilon", PyVal.pyRat epsilon),
     ("epoch", PyVal.pyNat step)]

/-- Lines 190-191 open the file checkpoints/checkpoint_ddqn.pickle in mode
wb, truncating it, and `pickle.dump(data_obj, handle)` serializes the single
object `data_obj` into it.  The result is the file content. -/
def writeCheckpointFile (cumulative_score epsilon : ℚ) (step : ℕ) : List PyVal :=
  [data_obj cumulative_score epsilon step]

/-- Lines 99-103: `data = pickle.load(f)` reads the first serialized object,
then the fields `epoch`, `cumulative_score` and `epsilon` of `data` are read
into `epoch`, `cumulative_score` and `agent.epsilon`.  `none` models the run
raising
(an empty file, a missing key, or an ill-typed field). -/
def loadCheckpointFile (file : List PyVal) : Option (ℕ × ℚ × ℚ) :=
  match file.head? with
  | none => none
  | some d =>
      match dictGet d "epoch", dictGet d "cumulative_score", dictGet d "epsilon" with
      | some (PyVal.pyNat ep), some (PyVal.pyRat cs), some (PyVal.pyRat eps) =>
          some (ep, cs, eps)
      | _, _, _ => none

/-! ### Control flow of `runner` (lines 39-146): name binding, exceptions,
phases -/

/-- The Python exceptions the claims distinguish.  `nameError` also covers
`UnboundLocalError`, its subclass. -/
inductive PyErr where
  | nameError
  | connectionRefused
  | systemExit
  | otherErr
deriving DecidableEq

/-- The sequential phases of `runner` named by the spec. -/
inductive Phase where
  | parseArgs
  | seeding
  | warmup
  | training
deriving DecidableEq

/-- The inputs that determine which phases a run of `runner` reaches:
the `--exp-name` argument (`none` when omitted), the `MODEL_LOAD` config
constant imported from `parameters` (bound to `checkpoint_load` on line 84),
and the outcome of `ClientConnection().setup()` (line 110). -/
structure RunInputs where
  exp_name : Option String
  checkpoint_load : Bool
  setupResult : Except PyErr (ℕ × ℕ)

/-- Control-flow skeleton of `runner` (lines 45-146): which phases run, in
which order, and with which uncaught exception a run dies.

* Lines 47-54 bind `run_name` inside a try block guarded by the test
  `exp_name == "ddqn"` — the
  string comparison raises nothing, so the `except` branch (printing and
  `sys.exit()`) is dead code; `run_name` is bound iff `exp_name == "ddqn"`.
* Line 56: `SummaryWriter(f"runs/{run_name}")` reads `run_name`; if it is
  unbound the run dies with an uncaught `NameError`.
* Lines 109-118: `client, world = ClientConnection().setup()` inside
  `try`; the bare `except` branch logs and then merely evaluates the class
  expression `ConnectionRefusedError` without raising it, leaving `client`
  and `world` unbound.
* Line 120: `CarlaEnvironment(client, world)` reads `client`; if unbound
  the run dies with a `NameError` (`UnboundLocalError`).
* Lines 127-137: the warm-up memory-filling loop runs iff
  `exp_name == "ddqn" and checkpoint_load`.
* Line 144 onwards: the training loop. -/
def runnerPhases (inp : RunInputs) : Except PyErr (List Phase) :=
  let run_name : Option String :=
    if inp.exp_name = some "ddqn" then some "DDQN" else none
  match run_name with
  | none => Except.error PyErr.nameError
  | some _ =>
      let clientWorld : Option (ℕ × ℕ) :=
        match inp.setupResult with
        | Except.ok p => some p
        | Except.error _ => none
      match clientWorld with
      | none => Except.error PyErr.nameError
      | some _ =>
          Except.ok
            ([Phase.parseArgs, Phase.seeding] ++
              (if inp.exp_name = some "ddqn" ∧ inp.checkpoint_load then
                [Phase.warmup] else []) ++
              [Phase.training])

/-! ### Episodes (lines 150-169) and the warm-up loop (lines 127-137) -/

/-- One result of `env.step(action)`: the new (already encoded) observation,
the reward, and the done flag.  A list of `StepResult`s is the oracle for one
episode: the answers of the environment along the actual run. -/
structure StepResult where
  newObs : Obs
  reward : ℚ
  done : Bool
deriving DecidableEq

/-- A call the driver makes into the simulator during an episode. -/
inductive EnvCall where
  | reset
  | step : ℕ → EnvCall
deriving DecidableEq

/-- The inner `while not done:` loop of a training episode (lines 159-169):
each iteration chooses `action = agent.get_action(observation)`, calls
`env.step(action)`, adds the reward to `score`, saves the transition,
learns, and moves to the new observation.  Returns the `env.step` calls
made and, when a result with `done = True` is reached, the final score and
the number of loop iterations; `none` models the loop never terminating
(the oracle ran out before any `done`). -/
def episodeWhile (act : Obs → ℕ) (obs : Obs) (score : ℚ) :
    List StepResult → List EnvCall × Option (ℚ × ℕ)
  | [] => ([], none)
  | r :: rest =>
      let a := act obs
      let score1 := score + r.reward
      if r.done then
        ([EnvCall.step a], some (score1, 1))
      else
        let rec1 := episodeWhile act r.newObs score1 rest
        (EnvCall.step a :: rec1.1, rec1.2.map (fun p => (p.1, p.2 + 1)))

/-- One training episode (lines 150-169): `observation = env.reset()` once,
`score = 0`, then the inner while loop. -/
def runOneEpisode (act : Obs → ℕ) (resetObs : Obs) (steps : List StepResult) :
    List EnvCall × Option (ℚ × ℕ) :=
  let inner := episodeWhile act resetObs 0 steps
  (EnvCall.reset :: inner.1, inner.2)

/-- A transition saved by `agent.save_transition(observation, action, reward,
new_observation, int(done))`. -/
structure Transition where
  obs : Obs
  action : ℕ
  reward : ℚ
  newObs : Obs
  doneFlag : ℕ
deriving DecidableEq

/-- Inner `while not done:` loop of the warm-up phase (lines 131-137): each
iteration draws `action = random.randint(0, n_actions-1)` from the random
stream `rng` (at position `t`), calls `env.step(action)` and saves the
transition.  Returns the saved transitions and the next random-stream
position. -/
def warmupInner (rng : ℕ → ℕ) : List StepResult → ℕ → Obs → List Transition × ℕ
  | [], t, _ => ([], t)
  | r :: rest, t, obs =>
      let action := randint 0 (n_actions - 1) (rng t)
      let tr : Transition :=
        ⟨obs, action, r.reward, r.newObs, if r.done then 1 else 0⟩
      if r.done then
        ([tr], t + 1)
      else
        let rec1 := warmupInner rng rest (t + 1) r.newObs
        (tr :: rec1.1, rec1.2)

/-- Outer warm-up loop (lines 128-137): `while agent.replay_buffer.counter <
agent.replay_buffer.buffer_size`, reset the environment and run one random
episode.  The replay buffer lives in the external agent, so the number of
episodes the condition admits is modelled by quantifying over an arbitrary
finite list of episode oracles (each a reset observation plus the stream of
`env.step` results); the random stream position is threaded through. -/
def warmupLoop (rng : ℕ → ℕ) : List (Obs × List StepResult) → ℕ → List Transition
  | [], _ => []
  | ep :: more, t =>
      let res := warmupInner rng ep.2 t ep.1
      res.1 ++ warmupLoop rng more res.2

/-! ### The training loop (lines 144-198) -/

/-- Model of `np.mean` over a list of numbers. -/
def npMean (xs : List ℚ) : ℚ := xs.sum / xs.length

/-- Model of the Python slice `xs[-n:]`: the last `n` elements of `xs`
(all of `xs` when it has fewer than `n`). -/
def lastN (n : ℕ) (xs : List ℚ) : List ℚ := xs.drop (xs.length - n)

/-- Observable persistence/logging effects of one training-loop iteration:
`agent.save_model()` (line 186), the pickled checkpoint write
(lines 188-191), and `writer.add_scalar(tag, value, step)`
(lines 193-196). -/
inductive Event where
  | saveModel : ℕ → Event
  | writeCheckpoint : ℕ → ℚ → ℚ → Event
  | addScalar : String → ℚ → ℕ → Event
deriving DecidableEq

/-- The driver-owned mutable state of the training loop: `scores` (line 92,
appended on line 176), `cumulative_score` (updated on lines 178-181) and
`episodic_length` (line 93, accumulated on line 174, reset on line 198). -/
structure TrainState where
  scores : List ℚ
  cumulative_score : ℚ
  episodic_length : ℚ
deriving DecidableEq

/-- One iteration of the training-loop body (lines 147-198) at episode index
`step`: the episode itself (lines 150-169) produced the score `score`
(claim C6 relates it to the inner loop `episodeWhile`), the wall clock
measured `dur = t3.total_seconds()` (lines 157, 172-173), and the
exploration rate of the agent after the episode is `eps`.  `cl` is
`checkpoint_load`.  A run that reaches this loop has `exp_name == "ddqn"`
(see `exp_name_not_ddqn_name_error`), so the checkpoint write guarded by
`if exp_name == "ddqn"` on line 188 happens at every save point. -/
def trainStep (cl : Bool) (step : ℕ) (score dur eps : ℚ) (st : TrainState) :
    TrainState × List Event :=
  let scores1 := st.scores ++ [score]
  let cum :=
    if cl then (st.cumulative_score * ((step : ℚ) - 1) + score) / (step : ℚ)
    else npMean scores1
  let el := st.episodic_length + |dur|
  if 20 ≤ step ∧ step % 20 = 0 then
    ({ scores := scores1, cumulative_score := cum, episodic_length := 0 },
     [Event.saveModel step,
      Event.writeCheckpoint step cum eps,
      Event.addScalar "Reward/info" (npMean (lastN 20 scores1)) step,
      Event.addScalar "Cumulative Reward/info" cum step,
      Event.addScalar "Episode Length (s)/info" (el / 20) step,
      Event.addScalar "Epsilon/info" eps step])
  else
    ({ scores := scores1, cumulative_score := cum, episodic_length := el }, [])

/-- The training loop `for step in range(epoch+1, EPISODES+1)` (line 146),
run from episode index `start` for `n` episodes: the full driver loop is
`runTrain cl score dur eps (epoch+1) (EPISODES - epoch) st0`.  The
per-episode oracles `score`, `dur`, `eps` give, for episode `i`, its total reward,
wall-clock duration and post-episode exploration rate.  Returns the final
state and, per episode index, the persistence/logging events of that
iteration. -/
def runTrain (cl : Bool) (score dur eps : ℕ → ℚ) :
    ℕ → ℕ → TrainState → TrainState × List (ℕ × List Event)
  | _, 0, st => (st, [])
  | start, n + 1, st =>
      let one := trainStep cl start (score start) (dur start) (eps start) st
      let rest := runTrain cl score dur eps (start + 1) n one.1
      (rest.1, (start, one.2) :: rest.2)

end DiscreteDriver

namespace DiscreteDriver

/-! ### Theorems for claims C4, C5, C8, C9, C1 -/

/-- Claim C4: every checkpoint record the driver persists consists of exactly
the three fields `epoch`, `cumulative_score` and `epsilon` and nothing else,
serialized as a single object. -/
theorem checkpoint_record_fields (c e : ℚ) (s : ℕ) :
    writeCheckpointFile c e s = [data_obj c e s] ∧
    (writeCheckpointFile c e s).length = 1 ∧
    ∃ keys, pyKeys (data_obj c e s) = some keys ∧
      keys.length = 3 ∧
      keys.toFinset = {"epoch", "cumulative_score", "epsilon"} := by
  refine ⟨rfl, rfl, ["cumulative_score", "epsilon", "epoch"], rfl, rfl, ?_⟩
  decide

/-- Claim C5: checkpoint persistence round-trips — writing the record at a
save point and loading it restores `epoch`, `cumulative_score` and
`agent.epsilon` to exactly the saved values. -/
theorem checkpoint_roundtrip (c e : ℚ) (s : ℕ) :
    loadCheckpointFile (writeCheckpointFile c e s) = some (s, c, e) := by
  rfl

/-- Claim C9: for every `--exp-name` other than the exact string `ddqn`
(including the `None` default), `runner` dies with an uncaught `NameError`
at the `SummaryWriter` construction, since `run_name` is never bound and the
preceding `try/except` catches nothing (the equality test raises nothing).
In particular the run never reaches any later phase. -/
theorem exp_name_not_ddqn_name_error (inp : RunInputs)
    (h : inp.exp_name ≠ some "ddqn") :
    runnerPhases inp = Except.error PyErr.nameError := by
  unfold runnerPhases
  simp [h]

/-- Witness for `exp_name_not_ddqn_name_error`: the omitted `--exp-name`
(defaulting to `None`). -/
theorem exp_name_not_ddqn_name_error_witness :
    runnerPhases ⟨none, true, Except.ok (0, 0)⟩ = Except.error PyErr.nameError :=
  exp_name_not_ddqn_name_error ⟨none, true, Except.ok (0, 0)⟩ (by decide)

/-- Claim C8: if `ClientConnection().setup()` raises any exception, the
driver neither raises `ConnectionRefusedError` nor exits: the `except`
branch only evaluates the class `ConnectionRefusedError` without raising,
execution continues to `CarlaEnvironment(client, world)` with `client` and
`world` unbound, and the run fails with a `NameError` instead. -/
theorem setup_failure_name_error (inp : RunInputs) (e : PyErr)
    (h : inp.setupResult = Except.error e) :
    runnerPhases inp = Except.error PyErr.nameError ∧
    runnerPhases inp ≠ Except.error PyErr.connectionRefused ∧
    runnerPhases inp ≠ Except.error PyErr.systemExit := by
  unfold runnerPhases
  by_cases hexp : inp.exp_name = some "ddqn" <;> simp [hexp, h]

/-- Witness for `setup_failure_name_error`: a `ddqn` run whose simulator
connection setup raises. -/
theorem setup_failure_name_error_witness :
    runnerPhases ⟨some "ddqn", false, Except.error PyErr.otherErr⟩ =
      Except.error PyErr.nameError ∧
    runnerPhases ⟨some "ddqn", false, Except.error PyErr.otherErr⟩ ≠
      Except.error PyErr.connectionRefused ∧
    runnerPhases ⟨some "ddqn", false, Except.error PyErr.otherErr⟩ ≠
      Except.error PyErr.systemExit :=
  setup_failure_name_error ⟨some "ddqn", false, Except.error PyErr.otherErr⟩
    PyErr.otherErr rfl

/-- Claim C1, counterexample: the claim says the warm-up memory-filling loop
runs before the training loop on every run; but on a run with `--exp-name
ddqn`, `MODEL_LOAD = False` and a successful connection, the training loop
runs and the warm-up loop does not run at all (line 127 gates it on
`exp_name == "ddqn" and checkpoint_load`). -/
theorem warmup_not_every_run :
    runnerPhases ⟨some "ddqn", false, Except.ok (0, 0)⟩ =
      Except.ok [Phase.parseArgs, Phase.seeding, Phase.training] ∧
    Phase.warmup ∉ [Phase.parseArgs, Phase.seeding, Phase.training] ∧
    Phase.training ∈ [Phase.parseArgs, Phase.seeding, Phase.training] := by
  refine ⟨rfl, ?_, ?_⟩ <;> decide

/-- Claim C1, amended: on every run that reaches the training loop,
execution is argument parsing, then seeding, then — exactly when
`exp_name == "ddqn"` and `checkpoint_load` (`MODEL_LOAD`) holds — the
warm-up memory-filling loop, then the training loop; so the warm-up loop,
whenever it runs, precedes the training loop, but it is skipped entirely
when `checkpoint_load` is false. -/
theorem phases_order (inp : RunInputs) (tr : List Phase)
    (h : runnerPhases inp = Except.ok tr) :
    (inp.exp_name = some "ddqn" ∧ inp.checkpoint_load = true →
      tr = [Phase.parseArgs, Phase.seeding, Phase.warmup, Phase.training]) ∧
    (¬(inp.exp_name = some "ddqn" ∧ inp.checkpoint_load = true) →
      tr = [Phase.parseArgs, Phase.seeding, Phase.training]) := by
  unfold runnerPhases at h
  by_cases hexp : inp.exp_name = some "ddqn"
  · simp only [hexp, if_pos rfl] at h
    cases hsetup : inp.setupResult with
    | error e => simp [hsetup] at h
    | ok p =>
        simp only [hsetup] at h
        by_cases hcl : inp.checkpoint_load = true
        · injection h with h
          constructor
          · intro _
            simp [← h, hexp, hcl]
          · intro hc
            exact absurd ⟨hexp, hcl⟩ hc
        · injection h with h
          constructor
          · intro hc
            exact absurd hc.2 hcl
          · intro _
            simp [← h, hexp, hcl]
  · simp [hexp] at h

/-! ### Claim C6: episodes -/

/-- Unfolding lemma for the inner episode loop on a stream whose first
`done = True` result is `d`, after the not-done prefix `pre`. -/
theorem episodeWhile_first_done (act : Obs → ℕ) (d : StepResult)
    (hd : d.done = true) :
    ∀ (pre post : List StepResult), (∀ r ∈ pre, r.done = false) →
    ∀ (obs : Obs) (score : ℚ),
    (episodeWhile act obs score (pre ++ d :: post)).2 =
      some (score + ((pre ++ [d]).map StepResult.reward).sum, pre.length + 1) ∧
    (episodeWhile act obs score (pre ++ d :: post)).1.length = pre.length + 1 ∧
    EnvCall.reset ∉ (episodeWhile act obs score (pre ++ d :: post)).1 := by
  intro pre
  induction pre with
  | nil =>
      intro post _ obs score
      simp [episodeWhile, hd]
  | cons r pre ih =>
      intro post hpre obs score
      have hr : r.done = false := hpre r (List.mem_cons_self r pre)
      have hpre1 : ∀ x ∈ pre, x.done = false := fun x hx =>
        hpre x (List.mem_cons_of_mem r hx)
      have ihh := ih post hpre1 r.newObs (score + r.reward)
      simp only [List.cons_append, episodeWhile, hr]
      refine ⟨?_, ?_, ?_⟩
      · simp [ihh.1, add_assoc]
      · simp [ihh.2.1]
      · intro hmem
        rcases List.mem_cons.mp hmem with h | h
        · exact EnvCall.noConfusion h
        · exact ihh.2.2 h

/-- Claim C6: a training episode is one run from an environment reset to the
first `env.step` result with `done = True`: `env.reset()` is called exactly
once, the inner loop makes exactly one `env.step` call per result up to and
including the first done one, and the episode score is the sum of the
rewards returned by `env.step` over the episode. -/
theorem episode_reset_once_score_sum (act : Obs → ℕ) (resetObs : Obs)
    (pre post : List StepResult) (d : StepResult)
    (hpre : ∀ r ∈ pre, r.done = false) (hd : d.done = true) :
    (runOneEpisode act resetObs (pre ++ d :: post)).2 =
      some (((pre ++ [d]).map StepResult.reward).sum, pre.length + 1) ∧
    (runOneEpisode act resetObs (pre ++ d :: post)).1.count EnvCall.reset = 1 ∧
    (runOneEpisode act resetObs (pre ++ d :: post)).1.length = pre.length + 2 := by
  have h := episodeWhile_first_done act d hd pre post hpre resetObs 0
  unfold runOneEpisode
  refine ⟨by simp [h.1], ?_, by simp [h.2.1]⟩
  simp [List.count_cons, List.count_eq_zero.mpr h.2.2]

/-- Witness for `episode_reset_once_score_sum`: a two-step episode with
rewards 2 and 3 ending at the first done signal. -/
theorem episode_reset_once_score_sum_witness :
    (runOneEpisode (fun _ => 0) 0
        [⟨1, 2, false⟩, ⟨2, 3, true⟩]).2 = some (5, 2) ∧
    (runOneEpisode (fun _ => 0) 0
        [⟨1, 2, false⟩, ⟨2, 3, true⟩]).1.count EnvCall.reset = 1 ∧
    (runOneEpisode (fun _ => 0) 0
        [⟨1, 2, false⟩, ⟨2, 3, true⟩]).1.length = 3 := by
  have h := episode_reset_once_score_sum (fun _ => 0) 0
    [⟨1, 2, false⟩] [] ⟨2, 3, true⟩ (by decide) rfl
  refine ⟨?_, ?_, ?_⟩
  · rw [show ([⟨1, 2, false⟩, ⟨2, 3, true⟩] : List StepResult) =
        [⟨1, 2, false⟩] ++ ⟨2, 3, true⟩ :: [] from rfl, h.1]
    norm_num
  · exact h.2.1
  · exact h.2.2

/-! ### Claim C10: warm-up actions -/

/-- Every transition the warm-up inner loop saves carries an action drawn by
`random.randint(0, n_actions - 1)`, hence in `[0, 6]`. -/
theorem warmupInner_action_le (rng : ℕ → ℕ) :
    ∀ (steps : List StepResult) (t : ℕ) (obs : Obs),
    ∀ tr ∈ (warmupInner rng steps t obs).1, tr.action ≤ 6 := by
  intro steps
  induction steps with
  | nil => intro t obs tr htr; simp [warmupInner] at htr
  | cons r rest ih =>
      intro t obs tr htr
      have hb : randint 0 (n_actions - 1) (rng t) ≤ 6 := by
        have : rng t % 7 < 7 := Nat.mod_lt _ (by norm_num)
        simp only [randint, n_actions]
        omega
      by_cases hr : r.done = true
      · simp [warmupInner, hr] at htr
        simp [htr, hb]
      · simp only [Bool.not_eq_true] at hr
        simp only [warmupInner, hr, Bool.false_eq_true, if_false,
          List.mem_cons] at htr
        rcases htr with h | h
        · simp [h, hb]
        · exact ih (t + 1) r.newObs tr h

/-- Claim C10: every action the warm-up memory-filling loop passes to
`env.step` and saves via `agent.save_transition` is an integer in the closed
range `[0, 6]`, being drawn by `random.randint(0, n_actions - 1)` with
`n_actions = 7`. -/
theorem warmup_actions_in_range (rng : ℕ → ℕ) :
    ∀ (episodes : List (Obs × List StepResult)) (t : ℕ),
    ∀ tr ∈ warmupLoop rng episodes t, 0 ≤ tr.action ∧ tr.action ≤ 6 := by
  intro episodes
  induction episodes with
  | nil => intro t tr htr; simp [warmupLoop] at htr
  | cons ep more ih =>
      intro t tr htr
      simp only [warmupLoop, List.mem_append] at htr
      rcases htr with h | h
      · exact ⟨Nat.zero_le _, warmupInner_action_le rng ep.2 t ep.1 tr h⟩
      · exact ih _ tr h

/-- Witness for `warmup_actions_in_range`: one single-step warm-up episode
with the identity random stream. -/
theorem warmup_actions_in_range_witness :
    (⟨0, 0, 1, 1, 1⟩ : Transition) ∈
      warmupLoop id [(0, [⟨1, 1, true⟩])] 0 ∧
    0 ≤ (⟨0, 0, 1, 1, 1⟩ : Transition).action ∧
    (⟨0, 0, 1, 1, 1⟩ : Transition).action ≤ 6 := by
  have hm : (⟨0, 0, 1, 1, 1⟩ : Transition) ∈
      warmupLoop id [(0, [⟨1, 1, true⟩])] 0 := by
    simp [warmupLoop, warmupInner, randint, n_actions]
  exact ⟨hm, warmup_actions_in_range id [(0, [⟨1, 1, true⟩])] 0 _ hm⟩

/-! ### Training-loop basics -/

/-- Both branches of the loop body append the episode score to `scores`. -/
theorem trainStep_scores (cl : Bool) (s : ℕ) (a b c : ℚ) (st : TrainState) :
    (trainStep cl s a b c st).1.scores = st.scores ++ [a] := by
  by_cases hc : 20 ≤ s ∧ s % 20 = 0 <;> simp [trainStep, hc]

/-- The cumulative-score update of the loop body (lines 178-181). -/
theorem trainStep_cum (cl : Bool) (s : ℕ) (a b c : ℚ) (st : TrainState) :
    (trainStep cl s a b c st).1.cumulative_score =
      if cl then (st.cumulative_score * ((s : ℚ) - 1) + a) / (s : ℚ)
      else npMean (st.scores ++ [a]) := by
  by_cases hc : 20 ≤ s ∧ s % 20 = 0 <;> simp [trainStep, hc]

/-- The episode-length accumulator after one loop iteration: reset to `0` at
a save point, otherwise increased by the episode duration. -/
theorem trainStep_el (cl : Bool) (s : ℕ) (a b c : ℚ) (st : TrainState) :
    (trainStep cl s a b c st).1.episodic_length =
      if 20 ≤ s ∧ s % 20 = 0 then 0 else st.episodic_length + |b| := by
  by_cases hc : 20 ≤ s ∧ s % 20 = 0 <;> simp [trainStep, hc]

/-- The events emitted by one loop iteration. -/
theorem trainStep_events (cl : Bool) (s : ℕ) (a b c : ℚ) (st : TrainState) :
    (trainStep cl s a b c st).2 =
      if 20 ≤ s ∧ s % 20 = 0 then
        [Event.saveModel s,
         Event.writeCheckpoint s
           (if cl then (st.cumulative_score * ((s : ℚ) - 1) + a) / (s : ℚ)
            else npMean (st.scores ++ [a])) c,
         Event.addScalar "Reward/info" (npMean (lastN 20 (st.scores ++ [a]))) s,
         Event.addScalar "Cumulative Reward/info"
           (if cl then (st.cumulative_score * ((s : ℚ) - 1) + a) / (s : ℚ)
            else npMean (st.scores ++ [a])) s,
         Event.addScalar "Episode Length (s)/info"
           ((st.episodic_length + |b|) / 20) s,
         Event.addScalar "Epsilon/info" c s]
      else [] := by
  by_cases hc : 20 ≤ s ∧ s % 20 = 0 <;> simp [trainStep, hc]

/-- Peeling the last iteration off the training loop. -/
theorem runTrain_fst_snoc (cl : Bool) (f g h : ℕ → ℚ) :
    ∀ (n start : ℕ) (st : TrainState),
    (runTrain cl f g h start (n + 1) st).1 =
      (trainStep cl (start + n) (f (start + n)) (g (start + n)) (h (start + n))
        (runTrain cl f g h start n st).1).1 := by
  intro n
  induction n with
  | zero =>
      intro start st
      simp [runTrain]
  | succ n ih =>
      intro start st
      have e1 : (runTrain cl f g h start (n + 1 + 1) st).1 =
          (runTrain cl f g h (start + 1) (n + 1)
            (trainStep cl start (f start) (g start) (h start) st).1).1 := rfl
      have e2 : (runTrain cl f g h start (n + 1) st).1 =
          (runTrain cl f g h (start + 1) n
            (trainStep cl start (f start) (g start) (h start) st).1).1 := rfl
      rw [e1, ih (start + 1), e2]
      have e3 : start + 1 + n = start + (n + 1) := by omega
      rw [e3]

/-- The scores list collected by the training loop. -/
theorem runTrain_scores (cl : Bool) (f g h : ℕ → ℚ) :
    ∀ (n start : ℕ) (st : TrainState),
    (runTrain cl f g h start n st).1.scores =
      st.scores ++ (List.range n).map (fun i => f (start + i)) := by
  intro n
  induction n with
  | zero =>
      intro start st
      simp [runTrain]
  | succ n ih =>
      intro start st
      have e1 : (runTrain cl f g h start (n + 1) st).1 =
          (runTrain cl f g h (start + 1) n
            (trainStep cl start (f start) (g start) (h start) st).1).1 := rfl
      rw [e1, ih (start + 1), trainStep_scores, List.append_assoc]
      congr 1
      rw [List.range_succ_eq_map]
      simp only [List.map_cons, List.map_map, List.singleton_append,
        Nat.add_zero, List.cons.injEq]
      refine ⟨trivial, ?_⟩
      apply List.map_congr_left
      intro i _
      simp only [Function.comp_apply]
      congr 1
      omega

/-- Sum of a shifted range of per-episode oracle values as an interval sum. -/
theorem sum_range_map_shift (φ : ℕ → ℚ) (a : ℕ) :
    ∀ n, ((List.range n).map (fun i => φ (a + 1 + i))).sum =
      ∑ i ∈ Finset.Ioc a (a + n), φ i := by
  intro n
  induction n with
  | zero => simp
  | succ n ih =>
      rw [List.range_succ, List.map_append, List.sum_append, ih]
      have hle : a ≤ a + n := Nat.le_add_right a n
      rw [show a + (n + 1) = (a + n) + 1 from rfl, Finset.sum_Ioc_succ_top hle]
      simp only [List.map_cons, List.map_nil, List.sum_cons, List.sum_nil,
        add_zero]
      have hidx : a + 1 + n = a + n + 1 := by omega
      rw [hidx]

/-- Invariant of the episode-length accumulator: starting the loop at
episode `epoch + 1` with the accumulator at `0` and `epoch` a multiple of
20 (as every checkpointed epoch is), after `n` episodes the accumulator
holds the total duration of the episodes since the last logging step. -/
theorem runTrain_el (cl : Bool) (f g h : ℕ → ℚ) (epoch : ℕ)
    (hep : epoch % 20 = 0) (l0 : List ℚ) (c0 : ℚ) :
    ∀ n, (runTrain cl f g h (epoch + 1) n ⟨l0, c0, 0⟩).1.episodic_length =
      ∑ i ∈ Finset.Ioc (20 * ((epoch + n) / 20)) (epoch + n), |g i| := by
  intro n
  induction n with
  | zero =>
      have h20 : 20 * (epoch / 20) = epoch := by omega
      simp [runTrain, h20]
  | succ n ih =>
      rw [runTrain_fst_snoc, trainStep_el, ih]
      have hidx : epoch + 1 + n = epoch + n + 1 := by omega
      rw [hidx]
      have hidx2 : epoch + (n + 1) = epoch + n + 1 := by omega
      rw [hidx2]
      by_cases hc : 20 ≤ epoch + n + 1 ∧ (epoch + n + 1) % 20 = 0
      · rw [if_pos hc]
        have h20 : 20 * ((epoch + n + 1) / 20) = epoch + n + 1 := by omega
        rw [h20, Finset.Ioc_self, Finset.sum_empty]
      · rw [if_neg hc]
        have hfloor : (epoch + n + 1) / 20 = (epoch + n) / 20 := by omega
        rw [hfloor]
        have hle : 20 * ((epoch + n) / 20) ≤ epoch + n := by omega
        rw [Finset.sum_Ioc_succ_top hle]

/-- Episode `start + m` of the loop contributes to the trace exactly the
events of the loop body applied to the state after the first `m`
episodes. -/
theorem runTrain_trace_mem (cl : Bool) (f g h : ℕ → ℚ) :
    ∀ (n m start : ℕ) (st : TrainState), m < n →
    (start + m,
      (trainStep cl (start + m) (f (start + m)) (g (start + m)) (h (start + m))
        (runTrain cl f g h start m st).1).2) ∈
      (runTrain cl f g h start n st).2 := by
  intro n
  induction n with
  | zero => intro m start st hm; exact absurd hm (Nat.not_lt_zero m)
  | succ n ih =>
      intro m start st hm
      match m with
      | 0 =>
          simp only [Nat.add_zero]
          exact List.mem_cons_self _ _
      | m' + 1 =>
          have hm' : m' < n := by omega
          have hmem := ih m' (start + 1)
            ((trainStep cl start (f start) (g start) (h start) st).1) hm'
          have hidx : start + 1 + m' = start + (m' + 1) := by omega
          rw [hidx] at hmem
          exact List.mem_cons_of_mem _ hmem

/-- Every entry of the training-loop trace is the event batch of the loop
body at its episode index, for some intermediate state. -/
theorem runTrain_trace_shape (cl : Bool) (f g h : ℕ → ℚ) :
    ∀ (n start : ℕ) (st : TrainState),
    ∀ q ∈ (runTrain cl f g h start n st).2,
      ∃ st1, q.2 = (trainStep cl q.1 (f q.1) (g q.1) (h q.1) st1).2 := by
  intro n
  induction n with
  | zero => intro start st q hq; simp [runTrain] at hq
  | succ n ih =>
      intro start st q hq
      rw [show (runTrain cl f g h start (n + 1) st).2 =
          (start, (trainStep cl start (f start) (g start) (h start) st).2) ::
            (runTrain cl f g h (start + 1) n
              (trainStep cl start (f start) (g start) (h start) st).1).2
        from rfl] at hq
      rcases List.mem_cons.mp hq with hq | hq
      · subst hq
        exact ⟨st, rfl⟩
      · exact ih (start + 1) _ q hq

/-- Claim C2: for every episode index taken by the training loop, the driver
persists agent state — `agent.save_model()` and the checkpoint record — iff
the index is at least 20 and a multiple of 20, and it logs each of its four
scalar metrics at exactly those same indices; moreover every index in the
range is taken. -/
theorem persistence_iff_mod_20 (cl : Bool) (f g h : ℕ → ℚ) (start n : ℕ)
    (st : TrainState) :
    (∀ q ∈ (runTrain cl f g h start n st).2,
      (Event.saveModel q.1 ∈ q.2 ↔ (20 ≤ q.1 ∧ q.1 % 20 = 0)) ∧
      ((∃ c e, Event.writeCheckpoint q.1 c e ∈ q.2) ↔
        (20 ≤ q.1 ∧ q.1 % 20 = 0)) ∧
      (∀ tag, tag = "Reward/info" ∨ tag = "Cumulative Reward/info" ∨
          tag = "Episode Length (s)/info" ∨ tag = "Epsilon/info" →
        ((∃ v, Event.addScalar tag v q.1 ∈ q.2) ↔
          (20 ≤ q.1 ∧ q.1 % 20 = 0)))) ∧
    (∀ m, m < n → ∃ ev, (start + m, ev) ∈ (runTrain cl f g h start n st).2) := by
  constructor
  · intro q hq
    obtain ⟨st1, hsh⟩ := runTrain_trace_shape cl f g h n start st q hq
    rw [hsh, trainStep_events]
    by_cases hc : 20 ≤ q.1 ∧ q.1 % 20 = 0
    · rw [if_pos hc]
      refine ⟨by simp [hc], ⟨fun _ => hc, fun _ => ?_⟩, ?_⟩
      · exact ⟨_, h q.1,
          List.mem_cons_of_mem _ (List.mem_cons_self _ _)⟩
      · intro tag htag
        refine ⟨fun _ => hc, fun _ => ?_⟩
        rcases htag with rfl | rfl | rfl | rfl
        · exact ⟨_, List.mem_cons_of_mem _ (List.mem_cons_of_mem _
            (List.mem_cons_self _ _))⟩
        · exact ⟨_, List.mem_cons_of_mem _ (List.mem_cons_of_mem _
            (List.mem_cons_of_mem _ (List.mem_cons_self _ _)))⟩
        · exact ⟨_, List.mem_cons_of_mem _ (List.mem_cons_of_mem _
            (List.mem_cons_of_mem _ (List.mem_cons_of_mem _
              (List.mem_cons_self _ _))))⟩
        · exact ⟨_, List.mem_cons_of_mem _ (List.mem_cons_of_mem _
            (List.mem_cons_of_mem _ (List.mem_cons_of_mem _
              (List.mem_cons_of_mem _ (List.mem_cons_self _ _)))))⟩
    · rw [if_neg hc]
      refine ⟨by simp [hc], by simp [hc], ?_⟩
      intro tag htag
      simp [hc]
  · intro m hm
    exact ⟨_, runTrain_trace_mem cl f g h n m start st hm⟩

/-- Witness for `persistence_iff_mod_20`: one iteration at episode index 20
of a loop with zero oracles; the save/log events are present there. -/
theorem persistence_iff_mod_20_witness :
    Event.saveModel 20 ∈
      (trainStep false 20 ((fun _ => (0 : ℚ)) 20) ((fun _ => (0 : ℚ)) 20)
        ((fun _ => (0 : ℚ)) 20)
        (runTrain false (fun _ => 0) (fun _ => 0) (fun _ => 0) 20 0
          ⟨[], 0, 0⟩).1).2 ↔ (20 ≤ 20 ∧ 20 % 20 = 0) := by
  have hmem := runTrain_trace_mem false (fun _ => (0 : ℚ)) (fun _ => 0)
    (fun _ => 0) 1 0 20 ⟨[], 0, 0⟩ (by norm_num)
  have h := ((persistence_iff_mod_20 false (fun _ => 0) (fun _ => 0)
    (fun _ => 0) 20 1 ⟨[], 0, 0⟩).1 _ hmem).1
  simpa using h

/-- Sum of a mapped range list as a `Finset.range` sum. -/
theorem list_sum_eq_sum_range (φ : ℕ → ℚ) :
    ∀ n, ((List.range n).map φ).sum = ∑ i ∈ Finset.range n, φ i := by
  intro n
  induction n with
  | zero => simp
  | succ n ih =>
      rw [List.range_succ, List.map_append, List.sum_append, ih,
        Finset.sum_range_succ]
      simp

/-- Fresh runs (`checkpoint_load` false) recompute the cumulative score as
`np.mean(scores)` (line 181), whatever the initial value was. -/
theorem runTrain_cum_fresh (f g h : ℕ → ℚ) (c0 : ℚ) :
    ∀ m, 1 ≤ m →
    (runTrain false f g h 1 m ⟨[], c0, 0⟩).1.cumulative_score =
      npMean ((List.range m).map (fun i => f (1 + i))) := by
  intro m hm
  obtain ⟨m', rfl⟩ : ∃ m', m = m' + 1 := ⟨m - 1, by omega⟩
  rw [runTrain_fst_snoc, trainStep_cum, if_neg (by decide), runTrain_scores]
  simp only [List.nil_append]
  congr 1
  rw [List.range_succ, List.map_append]
  simp

/-- Resumed runs (`checkpoint_load` true) update the cumulative score by the
running-average recurrence of line 179. -/
theorem runTrain_cum_resumed (f g h : ℕ → ℚ) (epoch : ℕ) (hep : 1 ≤ epoch)
    (c0 : ℚ) :
    ∀ m, 1 ≤ m →
    (runTrain true f g h (epoch + 1) m ⟨[], c0, 0⟩).1.cumulative_score =
      (c0 * epoch + ∑ i ∈ Finset.Ioc epoch (epoch + m), f i) /
        ((epoch : ℚ) + m) := by
  intro m
  induction m with
  | zero => intro hm; exact absurd hm (by norm_num)
  | succ m ih =>
      intro _
      rw [runTrain_fst_snoc, trainStep_cum, if_pos rfl]
      rcases Nat.eq_zero_or_pos m with hm | hm
      · subst hm
        have hstate :
            (runTrain true f g h (epoch + 1) 0 ⟨[], c0, 0⟩).1.cumulative_score
              = c0 := rfl
        rw [hstate]
        have hidx : epoch + 1 + 0 = epoch + 1 := by omega
        rw [hidx]
        rw [show epoch + (0 + 1) = epoch + 1 from by omega]
        rw [Finset.sum_Ioc_succ_top (Nat.le_refl epoch), Finset.Ioc_self,
          Finset.sum_empty]
        push_cast
        ring
      · rw [ih hm]
        have hidx : epoch + 1 + m = epoch + m + 1 := by omega
        rw [hidx]
        rw [show epoch + (m + 1) = (epoch + m) + 1 from by omega]
        rw [Finset.sum_Ioc_succ_top (Nat.le_add_right epoch m)]
        have hE : (0 : ℚ) < (epoch : ℚ) := by exact_mod_cast hep
        have hm0 : (0 : ℚ) ≤ (m : ℚ) := Nat.cast_nonneg m
        have hne : ((epoch : ℚ) + m) ≠ 0 := by linarith
        have hne2 : ((epoch : ℚ) + m + 1) ≠ 0 := by linarith
        push_cast
        field_simp
        ring

/-- Claim C3: after every completed episode of the training loop the
cumulative score equals the arithmetic mean of the scores of all episodes
from 1 through the current episode index — when training starts fresh
(`epoch = 0`, `np.mean(scores)` of the scores of this run), and when resumed
from a checkpoint whose restored cumulative score is the mean of the first
`epoch` episode scores (the recurrence of line 179 keeps it the overall
mean). -/
theorem cumulative_score_is_mean (f g h : ℕ → ℚ) :
    (∀ (c0 : ℚ) (m : ℕ), 1 ≤ m →
      (runTrain false f g h 1 m ⟨[], c0, 0⟩).1.cumulative_score =
        (∑ i ∈ Finset.Icc 1 m, f i) / (m : ℚ)) ∧
    (∀ (epoch m : ℕ) (preScores : List ℚ) (c0 : ℚ),
      1 ≤ epoch → 1 ≤ m → preScores.length = epoch → c0 = npMean preScores →
      (runTrain true f g h (epoch + 1) m ⟨[], c0, 0⟩).1.cumulative_score =
        (preScores.sum + ∑ i ∈ Finset.Ioc epoch (epoch + m), f i) /
          ((epoch : ℚ) + m)) := by
  constructor
  · intro c0 m hm
    rw [runTrain_cum_fresh f g h c0 m hm]
    unfold npMean
    rw [list_sum_eq_sum_range]
    simp only [List.length_map, List.length_range]
    congr 1
    rw [← Nat.Ico_succ_right, Finset.sum_Ico_eq_sum_range]
    simp
  · intro epoch m preScores c0 hep hm hlen hc0
    rw [runTrain_cum_resumed f g h epoch hep c0 m hm]
    have hE : (0 : ℚ) < (epoch : ℚ) := by exact_mod_cast hep
    have hcast : ((preScores.length : ℕ) : ℚ) = (epoch : ℚ) := by
      exact_mod_cast congrArg Nat.cast hlen
    have hc : c0 * epoch = preScores.sum := by
      rw [hc0]
      unfold npMean
      rw [hcast]
      exact div_mul_cancel₀ _ (ne_of_gt hE)
    rw [hc]

/-- Witness for `cumulative_score_is_mean`: a fresh two-episode run with
scores 1, 2 and a resume from one episode of score 5. -/
theorem cumulative_score_is_mean_witness :
    (runTrain false (fun i => (i : ℚ)) (fun _ => 0) (fun _ => 0) 1 2
        ⟨[], 0, 0⟩).1.cumulative_score =
      (∑ i ∈ Finset.Icc (1 : ℕ) 2, ((i : ℚ))) / ((2 : ℕ) : ℚ) ∧
    (runTrain true (fun i => (i : ℚ)) (fun _ => 0) (fun _ => 0) (1 + 1) 1
        ⟨[], npMean [5], 0⟩).1.cumulative_score =
      (([5] : List ℚ).sum + ∑ i ∈ Finset.Ioc (1 : ℕ) (1 + 1), ((i : ℚ))) /
        (((1 : ℕ) : ℚ) + ((1 : ℕ) : ℚ)) :=
  ⟨(cumulative_score_is_mean (fun i => (i : ℚ)) (fun _ => 0) (fun _ => 0)).1
      0 2 (by norm_num),
   (cumulative_score_is_mean (fun i => (i : ℚ)) (fun _ => 0) (fun _ => 0)).2
      1 1 [5] (npMean [5]) (by norm_num) (by norm_num) (by norm_num) rfl⟩

/-- Claim C7: at every logging step `s` of a run started at epoch `epoch`
(a multiple of 20, as every driver-written checkpoint epoch is; `epoch = 0`
for a fresh run), the trace contains exactly the events of lines 185-196:
`Reward/info` is the mean of the scores of the last 20 episodes recorded
this run, `Cumulative Reward/info` is the current `cumulative_score`,
`Episode Length (s)/info` is the episode time accumulated since the
previous logging step divided by 20, `Epsilon/info` is the current value of
epsilon — and the episode-length accumulator is reset to 0 by the log. -/
theorem logging_step_values (cl : Bool) (f g h : ℕ → ℚ) (epoch n : ℕ)
    (c0 : ℚ) (s : ℕ) (hep : epoch % 20 = 0) (hs : s % 20 = 0)
    (h1 : epoch < s) (h2 : s ≤ epoch + n) :
    (s, [Event.saveModel s,
         Event.writeCheckpoint s
           ((runTrain cl f g h (epoch + 1) (s - epoch)
              ⟨[], c0, 0⟩).1.cumulative_score) (h s),
         Event.addScalar "Reward/info"
           ((∑ i ∈ Finset.Ioc (s - 20) s, f i) / 20) s,
         Event.addScalar "Cumulative Reward/info"
           ((runTrain cl f g h (epoch + 1) (s - epoch)
              ⟨[], c0, 0⟩).1.cumulative_score) s,
         Event.addScalar "Episode Length (s)/info"
           ((∑ i ∈ Finset.Ioc (s - 20) s, |g i|) / 20) s,
         Event.addScalar "Epsilon/info" (h s) s])
      ∈ (runTrain cl f g h (epoch + 1) n ⟨[], c0, 0⟩).2 ∧
    (runTrain cl f g h (epoch + 1) (s - epoch)
      ⟨[], c0, 0⟩).1.episodic_length = 0 := by
  have hs20 : 20 ≤ s := by omega
  have hse : 20 ≤ s - epoch := by omega
  obtain ⟨m, hm⟩ : ∃ m, s = epoch + 1 + m := ⟨s - epoch - 1, by omega⟩
  have hm_lt : m < n := by omega
  have hsm1 : s - epoch = m + 1 := by omega
  have hcum : (runTrain cl f g h (epoch + 1) (s - epoch)
        ⟨[], c0, 0⟩).1.cumulative_score =
      (if cl then
        ((runTrain cl f g h (epoch + 1) m ⟨[], c0, 0⟩).1.cumulative_score *
          ((s : ℚ) - 1) + f s) / (s : ℚ)
       else npMean ((runTrain cl f g h (epoch + 1) m ⟨[], c0, 0⟩).1.scores ++
          [f s])) := by
    rw [hsm1, runTrain_fst_snoc, trainStep_cum, ← hm]
  have hrew : npMean (lastN 20
        ((runTrain cl f g h (epoch + 1) m ⟨[], c0, 0⟩).1.scores ++ [f s])) =
      (∑ i ∈ Finset.Ioc (s - 20) s, f i) / 20 := by
    rw [runTrain_scores]
    simp only [List.nil_append]
    have hL : (List.range m).map (fun i => f (epoch + 1 + i)) ++ [f s] =
        (List.range (m + 1)).map (fun i => f (epoch + 1 + i)) := by
      rw [List.range_succ, List.map_append]
      simp only [List.map_cons, List.map_nil]
      rw [← hm]
    rw [hL]
    unfold npMean lastN
    simp only [List.length_map, List.length_range, List.length_drop]
    have hlen1 : (m + 1) - ((m + 1) - 20) = 20 := by omega
    rw [hlen1]
    have htake : (((List.range (m + 1)).map
          (fun i => f (epoch + 1 + i))).take (m + 1 - 20)).sum =
        ∑ i ∈ Finset.Ioc epoch (s - 20), f i := by
      rw [← List.map_take, List.take_range]
      have hmin : min (m + 1 - 20) (m + 1) = m + 1 - 20 := by omega
      rw [hmin, sum_range_map_shift f epoch (m + 1 - 20)]
      have hidx : epoch + (m + 1 - 20) = s - 20 := by omega
      rw [hidx]
    have hLsum : ((List.range (m + 1)).map
          (fun i => f (epoch + 1 + i))).sum =
        ∑ i ∈ Finset.Ioc epoch s, f i := by
      rw [sum_range_map_shift f epoch (m + 1)]
      have hidx : epoch + (m + 1) = s := by omega
      rw [hidx]
    have htotal := List.sum_take_add_sum_drop
      ((List.range (m + 1)).map (fun i => f (epoch + 1 + i))) (m + 1 - 20)
    have hsplit := Finset.sum_Ioc_consecutive f
      (show epoch ≤ s - 20 by omega) (show s - 20 ≤ s by omega)
    have hdrop : (((List.range (m + 1)).map
          (fun i => f (epoch + 1 + i))).drop (m + 1 - 20)).sum =
        ∑ i ∈ Finset.Ioc (s - 20) s, f i := by linarith
    rw [hdrop]
    norm_num
  have hell : ((runTrain cl f g h (epoch + 1) m
        ⟨[], c0, 0⟩).1.episodic_length + |g s|) / 20 =
      (∑ i ∈ Finset.Ioc (s - 20) s, |g i|) / 20 := by
    rw [runTrain_el cl f g h epoch hep [] c0 m]
    have h20m : 20 * ((epoch + m) / 20) = s - 20 := by omega
    rw [h20m]
    congr 1
    have hle : s - 20 ≤ epoch + m := by omega
    have hss : s = epoch + m + 1 := by omega
    rw [hss]
    exact (Finset.sum_Ioc_succ_top (show epoch + m + 1 - 20 ≤ epoch + m
      by omega) _).symm
  constructor
  · have hmem := runTrain_trace_mem cl f g h n m (epoch + 1) ⟨[], c0, 0⟩ hm_lt
    rw [← hm] at hmem
    rw [trainStep_events, if_pos ⟨hs20, hs⟩] at hmem
    rw [hcum, ← hrew, ← hell]
    exact hmem
  · rw [hsm1, runTrain_el cl f g h epoch hep [] c0 (m + 1)]
    have h20 : 20 * ((epoch + (m + 1)) / 20) = epoch + (m + 1) := by omega
    rw [h20, Finset.Ioc_self, Finset.sum_empty]

/-- Witness for `logging_step_values`: the first logging step (episode 20)
of a fresh run whose every episode has score 1, duration 1 and epsilon 1. -/
theorem logging_step_values_witness :
    (20, [Event.saveModel 20,
         Event.writeCheckpoint 20
           ((runTrain false (fun _ => 1) (fun _ => 1) (fun _ => 1) (0 + 1)
              (20 - 0) ⟨[], 0, 0⟩).1.cumulative_score) ((fun _ => (1 : ℚ)) 20),
         Event.addScalar "Reward/info"
           ((∑ i ∈ Finset.Ioc (20 - 20) 20, ((fun _ => (1 : ℚ)) i)) / 20) 20,
         Event.addScalar "Cumulative Reward/info"
           ((runTrain false (fun _ => 1) (fun _ => 1) (fun _ => 1) (0 + 1)
              (20 - 0) ⟨[], 0, 0⟩).1.cumulative_score) 20,
         Event.addScalar "Episode Length (s)/info"
           ((∑ i ∈ Finset.Ioc (20 - 20) 20, |(fun _ => (1 : ℚ)) i|) / 20) 20,
         Event.addScalar "Epsilon/info" ((fun _ => (1 : ℚ)) 20) 20])
      ∈ (runTrain false (fun _ => 1) (fun _ => 1) (fun _ => 1) (0 + 1) 20
          ⟨[], 0, 0⟩).2 ∧
    (runTrain false (fun _ => 1) (fun _ => 1) (fun _ => 1) (0 + 1) (20 - 0)
      ⟨[], 0, 0⟩).1.episodic_length = 0 :=
  logging_step_values false (fun _ => 1) (fun _ => 1) (fun _ => 1) 0 20 0 20
    (by norm_num) (by norm_num) (by norm_num) (by norm_num)

/-- Witness for `phases_order`: a fresh `ddqn` run without checkpoint load
skips the warm-up loop. -/
theorem phases_order_witness :
    (⟨some "ddqn", false, Except.ok (0, 0)⟩ : RunInputs).exp_name = some "ddqn" ∧
    [Phase.parseArgs, Phase.seeding, Phase.training] =
      [Phase.parseArgs, Phase.seeding, Phase.training] := by
  refine ⟨rfl, ?_⟩
  exact (phases_order ⟨some "ddqn", false, Except.ok (0, 0)⟩
    [Phase.parseArgs, Phase.seeding, Phase.training] rfl).2 (by simp)

end DiscreteDriver
